import Mathlib

/-!
Shallow embedding of the decision core of the Qodana CLI repository:

* `core/properties.go`   — the Configuration Resolver (`getPropertiesMap`, `GetProperties`)
* `core/configurator.go` — the Language Scanner (`recognizeDirLanguages`, `readFile`,
  `isInIgnoredDirectory`) together with a faithful model of Go's `filepath.Walk`
* `platform` helpers     — `Contains`, `Append`, `QuoteIfSpace`, `GetDeviceIdSalt`
* `platform/statistics.go` — the FUS event queue, modelled as a labelled transition system

Go `map[string]string` values are modelled as association lists (`List (String × String)`)
with unique keys; Go map assignment `m[k] = v` is `insertProp`.  Where Go map iteration
order is observable, the model quantifies over permutations of the association list.
Byte slices are modelled as `List Nat`, file-system paths as `List String` (segments).
-/

namespace Qodana

/-- Association-list for a Go `map[string]string`: `m[k] = v` replaces the binding of
`k` if present, otherwise appends it. -/
def insertProp (props : List (String × String)) (k v : String) : List (String × String) :=
  match props with
  | [] => [(k, v)]
  | kv :: rest => if kv.1 = k then (k, v) :: rest else kv :: insertProp rest k v

/-- First-biased choice on options (`Option.orElse` without the thunk). -/
def orElseO (a b : Option String) : Option String :=
  match a with
  | some v => some v
  | none => b

/-- Association-list lookup, the model of a Go map read `m[k]`. -/
def lookupProp (props : List (String × String)) (k : String) : Option String :=
  match props with
  | [] => none
  | kv :: rest => if kv.1 = k then some kv.2 else lookupProp rest k

/-- The key set of an association list. -/
def propKeys (props : List (String × String)) : List String :=
  props.map Prod.fst

/-- `platform.Contains` (part_001 lines 43-50): linear scan for an exact string match. -/
def Contains (s : List String) (str : String) : Bool :=
  match s with
  | [] => false
  | v :: rest => if v = str then true else Contains rest str

/-- `platform.QuoteIfSpace` (part_001 lines 98-104): wrap `s` in double quotes when it
contains a space character. -/
def QuoteIfSpace (s : String) : String :=
  if s.data.any (fun c => c = ' ') then "\"" ++ s ++ "\"" else s

/-- Go `strconv.FormatBool`. -/
def formatBool (b : Bool) : String :=
  if b then "true" else "false"

/-- `platform.DotNet`: the optional .NET project attributes consumed by
`getPropertiesMap` (properties.go lines 60-78). -/
structure DotNet where
  project : String
  solution : String
  configuration : String
  platformName : String
  frameworks : String

/-- The fixed legacy .NET-Framework target-moniker denylist injected inside containers
(properties.go line 76). -/
def dotNetFrameworksDenylist : String :=
  "!net48;!net472;!net471;!net47;!net462;!net461;!net46;!net452;!net451;!net45;!net403;!net40;!net35;!net20;!net11"

/-- The Go map literal of properties.go lines 43-53 (its keys are pairwise distinct).
`cloud.Token.IsAllowedToSendFUS()` is passed as a boolean. -/
def basePropertiesMap (systemDir logDir confDir pluginsDir : String)
    (deviceIdSalt : List String) (analysisId : String) (isAllowedToSendFUS : Bool) :
    List (String × String) := [
  ("-Didea.headless.enable.statistics", formatBool isAllowedToSendFUS),
  ("-Didea.headless.statistics.device.id", deviceIdSalt.getD 0 ""),
  ("-Didea.headless.statistics.salt", deviceIdSalt.getD 1 ""),
  ("-Didea.config.path", QuoteIfSpace confDir),
  ("-Didea.system.path", QuoteIfSpace systemDir),
  ("-Didea.plugins.path", QuoteIfSpace pluginsDir),
  ("-Didea.log.path", QuoteIfSpace logDir),
  ("-Dqodana.automation.guid", QuoteIfSpace analysisId),
  ("-XX:MaxRAMPercentage", "70")]

/-- Conditional coverage assignment, properties.go lines 54-56. -/
def withCoverageDir (coverageDir : String) (ps : List (String × String)) :
    List (String × String) :=
  if coverageDir ≠ "" then insertProp ps "-Dqodana.coverage.input" (QuoteIfSpace coverageDir)
  else ps

/-- Conditional required-plugins assignment, properties.go lines 57-59. -/
def withPlugins (plugins : List String) (ps : List (String × String)) :
    List (String × String) :=
  if plugins.length > 0 then
    insertProp ps "-Didea.required.plugins.id" (String.intercalate "," plugins)
  else ps

/-- The `prefix == "Rider"` block of properties.go lines 60-78: project/solution,
configuration, platform, then frameworks with the container denylist fallback.
`platform.IsContainer()` is passed as a boolean. -/
def withDotNet (dotNet : DotNet) (isContainer : Bool) (ps : List (String × String)) :
    List (String × String) :=
  let p :=
    if dotNet.project ≠ "" then
      insertProp ps "-Dqodana.net.project" (QuoteIfSpace dotNet.project)
    else if dotNet.solution ≠ "" then
      insertProp ps "-Dqodana.net.solution" (QuoteIfSpace dotNet.solution)
    else ps
  let p :=
    if dotNet.configuration ≠ "" then
      insertProp p "-Dqodana.net.configuration" (QuoteIfSpace dotNet.configuration)
    else p
  let p :=
    if dotNet.platformName ≠ "" then
      insertProp p "-Dqodana.net.platform" (QuoteIfSpace dotNet.platformName)
    else p
  if dotNet.frameworks ≠ "" then
    insertProp p "-Dqodana.net.targetFrameworks" (QuoteIfSpace dotNet.frameworks)
  else if isContainer then
    insertProp p "-Dqodana.net.targetFrameworks" dotNetFrameworksDenylist
  else p

/-- `core.getPropertiesMap` (properties.go lines 31-83): the map literal followed by
the conditional `properties[k] = v` assignment blocks in source order. -/
def getPropertiesMap (pfx systemDir logDir confDir pluginsDir : String) (dotNet : DotNet)
    (deviceIdSalt : List String) (plugins : List String) (analysisId coverageDir : String)
    (isAllowedToSendFUS isContainer : Bool) : List (String × String) :=
  let properties := basePropertiesMap systemDir logDir confDir pluginsDir deviceIdSalt
    analysisId isAllowedToSendFUS
  let properties := withCoverageDir coverageDir properties
  let properties := withPlugins plugins properties
  if pfx = "Rider" then withDotNet dotNet isContainer properties else properties

/-- Key normalisation of the yaml/CLI merge loops (properties.go lines 123-125 and
129-131): a key that does not already start with `-` is rewritten to `-D` + key.
`strings.HasPrefix(k, "-")` is modelled on the character list. -/
def normalizeKey (k : String) : String :=
  if "-".data.isPrefixOf k.data then k else "-D" ++ k

/-- One override layer after key normalisation. -/
def normalizeLayer (layer : List (String × String)) : List (String × String) :=
  layer.map (fun kv => (normalizeKey kv.1, kv.2))

/-- The override-merge loop of properties.go lines 122-127 / 128-133: each entry of
`layer` (one Go map iteration) is written into `props` under its normalised key. -/
def mergeLayer (props layer : List (String × String)) : List (String × String) :=
  layer.foldl (fun ps kv => insertProp ps (normalizeKey kv.1) kv.2) props

/-- External context read by `GetProperties` (environment, product descriptor,
option paths); every field models one of the non-`src` reads of properties.go. -/
structure PropContext where
  logDir : String
  jvmDebugPort : Int
  containerJvmDebugPort : String
  treatAsRelease : String
  customPluginPaths : String
  cacheDir : String
  confDir : String
  pfx : String
  versionBranch : String
  isAllowedToSendFUS : Bool
  isContainer : Bool
  deviceIdSalt : List String
  analysisId : String
  coverageDir : String

/-- The explicit raw-flag merge step (properties.go lines 104-108): a non-empty flag is
appended only when not already present verbatim (`platform.Contains`). -/
def mergeFlags (lines : List String) (flags : List String) : List String :=
  flags.foldl (fun ls f => if f ≠ "" ∧ ¬ Contains ls f then ls ++ [f] else ls) lines

/-- The base line list of `GetProperties` before map flattening
(properties.go lines 87-108): gc-log flag, optional debug/agentlib flag, optional
release-license flag, optional custom plugin path, then the raw CLI flags. -/
def baseLines (ctx : PropContext) (flags : List String) : List String :=
  let lines := ["-Xlog:gc*:" ++ QuoteIfSpace (ctx.logDir ++ "/gc.log")]
  let lines :=
    if ctx.jvmDebugPort > 0 then
      lines ++ ["-agentlib:jdwp=transport=dt_socket,server=y,suspend=y,address=*:" ++
        ctx.containerJvmDebugPort]
    else lines
  let lines :=
    if ctx.treatAsRelease = "true" then lines ++ ["-Deap.require.license=release"] else lines
  let lines :=
    if ctx.customPluginPaths ≠ "" then
      lines ++ ["-Dplugin.path=" ++ ctx.customPluginPaths]
    else lines
  mergeFlags lines flags

/-- The computed defaults layer: the `getPropertiesMap` call of properties.go lines
110-121, with the context paths joined as in the source. -/
def defaultProps (ctx : PropContext) (dotNetOptions : DotNet) (plugins : List String) :
    List (String × String) :=
  getPropertiesMap ctx.pfx (ctx.cacheDir ++ "/idea/" ++ ctx.versionBranch)
    ctx.logDir ctx.confDir (ctx.cacheDir ++ "/plugins/" ++ ctx.versionBranch) dotNetOptions
    ctx.deviceIdSalt plugins ctx.analysisId ctx.coverageDir
    ctx.isAllowedToSendFUS ctx.isContainer

/-- The fully merged options map of `GetProperties` (properties.go lines 110-133):
computed defaults, overridden by the yaml layer, overridden by the CLI layer. -/
def resolvedProps (ctx : PropContext) (dotNetOptions : DotNet) (plugins : List String)
    (yamlProps cliProps : List (String × String)) : List (String × String) :=
  mergeLayer (mergeLayer (defaultProps ctx dotNetOptions plugins) yamlProps) cliProps

/-- Map-entry formatting of properties.go line 136. -/
def fmtProp (kv : String × String) : String :=
  kv.1 ++ "=" ++ kv.2

/-- `core.GetProperties` (properties.go lines 86-142): base lines plus the flattened
merged map, sorted with `sort.Strings`. -/
def GetProperties (ctx : PropContext) (dotNetOptions : DotNet) (plugins : List String)
    (yamlProps cliProps : List (String × String)) (flags : List String) : List String :=
  List.insertionSort (fun a b : String => a ≤ b)
    (baseLines ctx flags ++ (resolvedProps ctx dotNetOptions plugins yamlProps cliProps).map fmtProp)

/-- `platform.Append` (part_001 lines 61-66): append `elems[0]` to `slice` unless it is
already present; all later variadic arguments are ignored.  Go panics on an empty
variadic list; the model reads `elems.headD ""` and is only quoted on non-empty lists. -/
def Append (slice : List String) (elems : List String) : List String :=
  if ¬ Contains slice (elems.headD "") then slice ++ [elems.headD ""] else slice

/-- The all-zero placeholder hash of `GetDeviceIdSalt` (part_001 line 134). -/
def placeholderHash : String := "00000000000000000000000000000000"

/-- Go string slicing `s[a:b]` (on the ASCII hex digests involved, byte indexing and
character indexing coincide). -/
def substrRange (s : String) (a b : Nat) : String :=
  String.mk ((s.data.drop a).take (b - a))

/-- The first-salt hash of part_001 lines 134-138: md5 of `"1n1T-$@Lt-" ++ remoteUrl`,
or the all-zero placeholder when the remote URL is empty.  `md5hex` stands for
`fmt.Sprintf("%x", md5.Sum ...)`, a fixed pure digest function. -/
def remoteHash (md5hex : String → String) (remoteUrl : String) : String :=
  if remoteUrl ≠ "" then md5hex ("1n1T-$@Lt-" ++ remoteUrl) else placeholderHash

/-- The derived salt as a function of the remote URL alone (part_001 line 140). -/
def saltOfUrl (md5hex : String → String) (remoteUrl : String) : String :=
  md5hex ("$eC0nd-$@Lt-" ++ remoteHash md5hex remoteUrl)

/-- The derived synthetic device id as a function of the remote URL alone
(part_001 line 143). -/
def deviceIdOfUrl (md5hex : String → String) (remoteUrl : String) : String :=
  let hash := remoteHash md5hex remoteUrl
  "200820300000000-" ++ substrRange hash 0 4 ++ "-" ++ substrRange hash 4 8 ++ "-" ++
    substrRange hash 8 12 ++ "-" ++ substrRange hash 12 24

/-- `platform.GetDeviceIdSalt` (part_001 lines 130-147).  The `SALT` / `DEVICEID`
environment values and the remote URL (`getRemoteUrl`, lines 117-127) are inputs. -/
def GetDeviceIdSalt (md5hex : String → String) (saltEnv deviceIdEnv remoteUrl : String) :
    List String :=
  if saltEnv = "" ∨ deviceIdEnv = "" then
    let hash := remoteHash md5hex remoteUrl
    let salt := if saltEnv = "" then md5hex ("$eC0nd-$@Lt-" ++ hash) else saltEnv
    let deviceId :=
      if deviceIdEnv = "" then
        "200820300000000-" ++ substrRange hash 0 4 ++ "-" ++ substrRange hash 4 8 ++ "-" ++
          substrRange hash 8 12 ++ "-" ++ substrRange hash 12 24
      else deviceIdEnv
    [deviceId, salt]
  else [deviceIdEnv, saltEnv]

/-!  ### Language Scanner (core/configurator.go)  -/

/-- A file-system tree with injectable I/O errors: a file may fail `lstat` or its
content read; a directory may fail `lstat` or `readDirNames`. -/
inductive FsEntry where
  | file (name : String) (statErr : Bool) (readErr : Bool) (content : List Nat) : FsEntry
  | dir (name : String) (statErr : Bool) (readDirErr : Bool) (children : List FsEntry) : FsEntry

/-- Entry name (the last path segment). -/
def FsEntry.entryName : FsEntry → String
  | .file n _ _ _ => n
  | .dir n _ _ _ => n

/-- Whether `lstat` fails on this entry. -/
def FsEntry.statErr : FsEntry → Bool
  | .file _ se _ _ => se
  | .dir _ se _ _ => se

/-- Whether the entry is a directory (`FileInfo.IsDir`). -/
def FsEntry.isDirE : FsEntry → Bool
  | .file _ _ _ _ => false
  | .dir _ _ _ _ => true

/-- The possible results of a Go `filepath.WalkFunc`: `nil`, `filepath.SkipDir`, or any
other (real) error. -/
inductive WalkRet where
  | nil : WalkRet
  | skipDir : WalkRet
  | fail : WalkRet
deriving DecidableEq

mutual

/-- Go's `filepath.walk` on one entry (the recursive worker of `filepath.Walk`):
files are handed to `fn`; for directories, `readDirNames`'s error (if any) is handed
to `fn`, and on success the children are walked in order. -/
def walkEntry {σ : Type} (fn : List String → Option FsEntry → Bool → σ → σ × WalkRet)
    (path : List String) (e : FsEntry) (s : σ) : σ × WalkRet :=
  match e with
  | .file n se re c => fn path (some (.file n se re c)) false s
  | .dir n se de children =>
    let r1 := fn path (some (.dir n se de children)) de s
    if de ∨ r1.2 ≠ .nil then r1
    else walkChildren fn path children r1.1

/-- The child loop of Go's `filepath.walk`: an `lstat` failure on a child reports the
error to `fn` (continuing unless `fn` returns a real error); a recursive walk result of
`SkipDir` on a directory child is swallowed; any other non-`nil` result aborts. -/
def walkChildren {σ : Type} (fn : List String → Option FsEntry → Bool → σ → σ × WalkRet)
    (dirPath : List String) (cs : List FsEntry) (s : σ) : σ × WalkRet :=
  match cs with
  | [] => (s, .nil)
  | c :: rest =>
    let childPath := dirPath ++ [c.entryName]
    if c.statErr then
      let r := fn childPath none true s
      match r.2 with
      | .fail => (r.1, .fail)
      | _ => walkChildren fn dirPath rest r.1
    else
      let r := walkEntry fn childPath c s
      match r.2 with
      | .nil => walkChildren fn dirPath rest r.1
      | .skipDir => if c.isDirE then walkChildren fn dirPath rest r.1 else (r.1, .skipDir)
      | .fail => (r.1, .fail)

end

/-- Go's top-level `filepath.Walk`: an `lstat` failure on the root is reported to `fn`;
a final result of `SkipDir` is converted to success. -/
def filepathWalk {σ : Type} (fn : List String → Option FsEntry → Bool → σ → σ × WalkRet)
    (rootPath : List String) (root : FsEntry) (s : σ) : σ × WalkRet :=
  let r := if root.statErr then fn rootPath none true s else walkEntry fn rootPath root s
  (r.1, if r.2 = .skipDir then .nil else r.2)

/-- `enry.GetLanguageType` result universe. -/
inductive EnryType where
  | programming : EnryType
  | markup : EnryType
  | data : EnryType
  | prose : EnryType
  | unknownType : EnryType
deriving DecidableEq

/-- The go-enry classification capability used by the Scanner (an external library,
taken as an arbitrary family of pure classifiers). -/
structure Enry where
  isVendor : String → Bool
  isDotFile : String → Bool
  isDocumentation : String → Bool
  isConfiguration : String → Bool
  isGeneratedNoContent : String → Bool
  isGenerated : String → List Nat → Bool
  getLanguage : String → List Nat → String
  getLanguageType : String → EnryType

/-- `enry.OtherLanguage` (the empty string in go-enry). -/
def OtherLanguage : String := ""

/-- `core.ignoredDirectories` (configurator.go lines 70-74). -/
def ignoredDirectories : List String := [".idea", ".vscode", ".git"]

/-- `core.isInIgnoredDirectory` (configurator.go lines 85-95): some segment of the
(full) path equals one of the ignored tooling directory names. -/
def isInIgnoredDirectory (path : List String) : Bool :=
  path.any (fun part => ignoredDirectories.any (fun ignored => part = ignored))

/-- `const limitKb = 64` (configurator.go line 99). -/
def limitKb : Int := 64

/-- `core.readFile` (configurator.go lines 179-205) on the content of an already
opened file: a non-positive limit reads the whole file (`os.ReadFile`), otherwise
`io.Copy` from `io.LimitReader(f, limit)` yields the first `limit` bytes. -/
def readFile (content : List Nat) (limit : Int) : List Nat :=
  if limit ≤ 0 then content else content.take limit.toNat

/-- The read performed for a surviving file inside the walk callback
(configurator.go line 135): `none` models a failed open/stat/copy. -/
def readFileE : FsEntry → Option (List Nat)
  | .file _ _ re c => if re then none else some (readFile c limitKb)
  | .dir _ _ _ _ => none

/-- `filepath.Rel(projectPath, path)` for paths produced by the walk: the segments of
`path` below `projectPath`, or `none` when `path` does not lie below it. -/
def relSegments (root path : List String) : Option (List String) :=
  if root.isPrefixOf path then some (path.drop root.length) else none

/-- `out[language] += 1` on the occurrence-counter map (configurator.go line 153). -/
def incrCount (out : List (String × Nat)) (lang : String) : List (String × Nat) :=
  match out with
  | [] => [(lang, 1)]
  | kv :: rest => if kv.1 = lang then (kv.1, kv.2 + 1) :: rest else kv :: incrCount rest lang

/-- The walk callback of `core.recognizeDirLanguages` (configurator.go lines 101-155):
errors answer `SkipDir`; directories return `nil` at line 106 (`f.Mode().IsDir() &&
!f.Mode().IsRegular()`); files are classified and, when they survive every filter,
increment their language's counter. -/
def recognizeWalkFn (e : Enry) (projectPath : List String) (path : List String)
    (entry : Option FsEntry) (errFlag : Bool) (out : List (String × Nat)) :
    List (String × Nat) × WalkRet :=
  if errFlag then (out, .skipDir)
  else
    match entry with
    | none => (out, .nil)
    | some fe =>
      if fe.isDirE then (out, .nil)
      else
        match relSegments projectPath path with
        | none => (out, .nil)
        | some [] => (out, .nil)
        | some (seg :: segs) =>
          let relpath := String.intercalate "/" (seg :: segs)
          if isInIgnoredDirectory path ∨ e.isVendor relpath ∨ e.isDotFile relpath ∨
              e.isDocumentation relpath ∨ e.isConfiguration relpath ∨
              e.isGeneratedNoContent relpath then
            (out, .nil)
          else
            match readFileE fe with
            | none => (out, .nil)
            | some content =>
              if e.isGenerated relpath content then (out, .nil)
              else
                let language := e.getLanguage (path.getLastD "") content
                if language = OtherLanguage then (out, .nil)
                else if e.getLanguageType language ≠ EnryType.programming then (out, .nil)
                else (incrCount out language, .nil)

/-- `core.recognizeDirLanguages` up to its deterministic part (configurator.go lines
98-158): the walk with the callback above; a non-`nil` walk result is returned as an
error.  The result is the occurrence-counter map; ranking is `ScannerOutcome`. -/
def recognizeDirLanguages (e : Enry) (projectPath : List String) (root : FsEntry) :
    Except Unit (List (String × Nat)) :=
  let r := filepathWalk (recognizeWalkFn e projectPath) projectPath root []
  if r.2 ≠ .nil then Except.error () else Except.ok r.1

/-- The `sort.Slice` comparison of configurator.go lines 167-169, as the total
preorder it induces: descending occurrence count. -/
def geCount (a b : String × Nat) : Prop := b.2 ≤ a.2

instance : DecidableRel geCount := fun a b => Nat.decLe b.2 a.2

/-- The possible ranked outputs of `recognizeDirLanguages` (configurator.go lines
159-175): the counter map is poured into a slice in Go-map iteration order (an
arbitrary permutation), sorted by descending count with `sort.Slice` (no tie-break),
and projected to language names.  A stable sort over an arbitrary permutation covers
exactly the outcomes an unstable sort over an arbitrary iteration order can produce. -/
def ScannerOutcome (e : Enry) (projectPath : List String) (root : FsEntry)
    (langs : List String) : Prop :=
  ∃ counts itOrder, recognizeDirLanguages e projectPath root = Except.ok counts ∧
    counts.Perm itOrder ∧ langs = (List.insertionSort geCount itOrder).map Prod.fst

/-!  ### FUS statistics event queue (platform/statistics.go)

Each producer (`logProjectOpen` / `logProjectClose` / `logOs`, lines 115-151) runs
`wg.Add(1)` and then sends its event on the unbuffered channel created by
`createFuserEventChannel` (lines 37-48); the single consumer goroutine receives an
event, appends it to the in-memory buffer, and runs `wg.Done()`.  `sendFuserEvents`
(lines 50-52) runs `wg.Wait()` and only then closes the channel and flushes.

Every event is modelled as one producer index moving through the pipeline
idle → added → sent → appended → done; `wg` counts `Add`s minus `Done`s, and the
buffer records appended indices.  `send` rendezvous is enabled only while the single
consumer is not holding an event.
-/

/-- The pipeline position of one producer/event. -/
inductive FusStage where
  | idle : FusStage
  | added : FusStage
  | sent : FusStage
  | appended : FusStage
  | done : FusStage
deriving DecidableEq

/-- Stages between `wg.Add(1)` (inclusive) and `wg.Done()` (exclusive). -/
def inFlight : FusStage → Bool
  | .added => true
  | .sent => true
  | .appended => true
  | _ => false

/-- A global state of the statistics path: per-producer stages, the wait-group
counter, and the in-memory event buffer (as appended producer indices). -/
structure FusState where
  stages : List FusStage
  wg : Nat
  buffer : List Nat

/-- The consumer goroutine is busy between receiving an event and finishing
`wg.Done()` for it. -/
def consumerBusy (σ : FusState) : Bool :=
  σ.stages.any (fun s => s = .sent ∨ s = .appended)

/-- Interleaving semantics of the statistics path. -/
inductive FusStep : FusState → FusState → Prop where
  | add (σ : FusState) (i : Nat) (h : σ.stages.get? i = some .idle) :
      FusStep σ ⟨σ.stages.set i .added, σ.wg + 1, σ.buffer⟩
  | send (σ : FusState) (i : Nat) (h : σ.stages.get? i = some .added)
      (hc : consumerBusy σ = false) :
      FusStep σ ⟨σ.stages.set i .sent, σ.wg, σ.buffer⟩
  | append (σ : FusState) (i : Nat) (h : σ.stages.get? i = some .sent) :
      FusStep σ ⟨σ.stages.set i .appended, σ.wg, σ.buffer ++ [i]⟩
  | done (σ : FusState) (i : Nat) (h : σ.stages.get? i = some .appended) :
      FusStep σ ⟨σ.stages.set i .done, σ.wg - 1, σ.buffer⟩

/-- Initial state for `n` producers: nothing enqueued, counter zero, empty buffer. -/
def fusInit (n : Nat) : FusState :=
  ⟨List.replicate n .idle, 0, []⟩

/-- Reachability of the statistics path from the initial state. -/
def FusReachable (n : Nat) (σ : FusState) : Prop :=
  Relation.ReflTransGen FusStep (fusInit n) σ

/-- The inductive invariant of the statistics path: the wait-group counter counts
exactly the events between their `Add` and their `Done`, and the buffer holds exactly
the events whose append has happened. -/
def FusInv (σ : FusState) : Prop :=
  σ.wg = σ.stages.countP inFlight ∧
  ∀ i : Nat, i ∈ σ.buffer ↔
    (σ.stages.get? i = some FusStage.appended ∨ σ.stages.get? i = some FusStage.done)

/-!  ### Concrete fixtures used by witnesses and counterexamples  -/

/-- An empty resolver context. -/
def ctxEmpty : PropContext :=
  ⟨"", 0, "", "", "", "", "", "", "", false, false, [], "", ""⟩

/-- The resolver context of the precedence witness: run identifier `"1"`. -/
def ctxGuidOne : PropContext :=
  ⟨"", 0, "", "", "", "", "", "", "", false, false, [], "1", ""⟩

/-- Empty .NET options. -/
def dotNetEmpty : DotNet := ⟨"", "", "", "", ""⟩

/-- A classifier family that rejects nothing and names each file after its base name;
used to build concrete scanner runs. -/
def enryByName : Enry :=
  ⟨fun _ => false, fun _ => false, fun _ => false, fun _ => false,
    fun _ => false, fun _ _ => false, fun n _ => n, fun _ => EnryType.programming⟩

/-- A two-file project tree whose two languages tie at one occurrence each. -/
def treeTie : FsEntry :=
  .dir "p" false false [.file "A" false false [1], .file "B" false false [2]]

/-!  ## Association-list lemmas for the Configuration Resolver  -/

theorem lookupProp_insertProp_self (ps : List (String × String)) (k v : String) :
    lookupProp (insertProp ps k v) k = some v := by
  induction ps with
  | nil => simp [insertProp, lookupProp]
  | cons kv rest ih =>
    by_cases h : kv.1 = k
    · simp [insertProp, lookupProp, h]
    · simp [insertProp, lookupProp, h, ih]

theorem lookupProp_insertProp_ne (ps : List (String × String)) (k v k' : String)
    (h : k' ≠ k) : lookupProp (insertProp ps k v) k' = lookupProp ps k' := by
  have hne : k ≠ k' := fun hh => h hh.symm
  induction ps with
  | nil => simp [insertProp, lookupProp, hne]
  | cons kv rest ih =>
    by_cases hk : kv.1 = k
    · subst hk
      simp [insertProp, lookupProp, hne]
    · by_cases hk' : kv.1 = k'
      · simp [insertProp, lookupProp, hk, hk', h]
      · simp [insertProp, lookupProp, hk, hk', ih]

theorem mem_propKeys_insertProp (ps : List (String × String)) (k v a : String) :
    a ∈ propKeys (insertProp ps k v) ↔ a ∈ propKeys ps ∨ a = k := by
  induction ps with
  | nil => simp [insertProp, propKeys]
  | cons kv rest ih =>
    by_cases h : kv.1 = k
    · subst h
      simp [insertProp, propKeys]
      tauto
    · simp only [insertProp, if_neg h, propKeys, List.map_cons, List.mem_cons]
      rw [show (insertProp rest k v).map Prod.fst = propKeys (insertProp rest k v) from rfl]
      rw [ih]
      tauto

theorem nodup_propKeys_insertProp (ps : List (String × String)) (k v : String)
    (h : (propKeys ps).Nodup) : (propKeys (insertProp ps k v)).Nodup := by
  induction ps with
  | nil => simp [insertProp, propKeys]
  | cons kv rest ih =>
    simp only [propKeys, List.map_cons, List.nodup_cons] at h
    by_cases hk : kv.1 = k
    · subst hk
      simp only [insertProp]
      rw [if_pos trivial]
      simp only [propKeys, List.map_cons, List.nodup_cons]
      exact h
    · simp only [insertProp, if_neg hk, propKeys, List.map_cons, List.nodup_cons]
      constructor
      · intro hmem
        rcases (mem_propKeys_insertProp rest k v kv.1).1 hmem with hin | heq
        · exact h.1 hin
        · exact hk heq
      · exact ih h.2

theorem lookupProp_eq_none (ps : List (String × String)) (k : String) :
    lookupProp ps k = none ↔ k ∉ propKeys ps := by
  induction ps with
  | nil => simp [lookupProp, propKeys]
  | cons kv rest ih =>
    by_cases h : kv.1 = k
    · subst h
      simp [lookupProp, propKeys]
    · have hne : k ≠ kv.1 := fun hh => h hh.symm
      simp [lookupProp, h, propKeys, ih, hne]

theorem mem_of_lookupProp (ps : List (String × String)) (k v : String)
    (h : lookupProp ps k = some v) : (k, v) ∈ ps := by
  induction ps with
  | nil => simp [lookupProp] at h
  | cons kv rest ih =>
    by_cases hk : kv.1 = k
    · simp only [lookupProp, if_pos hk, Option.some.injEq] at h
      have hkv : kv = (k, v) := by
        cases kv
        simp_all
      rw [hkv]
      exact List.mem_cons_self _ _
    · simp only [lookupProp, if_neg hk] at h
      exact List.mem_cons_of_mem _ (ih h)

theorem lookupProp_of_mem (ps : List (String × String)) (k v : String)
    (hmem : (k, v) ∈ ps) (hnd : (propKeys ps).Nodup) : lookupProp ps k = some v := by
  induction ps with
  | nil => simp at hmem
  | cons kv rest ih =>
    simp only [propKeys, List.map_cons, List.nodup_cons] at hnd
    rcases List.mem_cons.1 hmem with heq | hin
    · rw [← heq]
      simp [lookupProp]
    · have hk : kv.1 ≠ k := by
        intro hk
        apply hnd.1
        rw [hk]
        exact List.mem_map.2 ⟨(k, v), hin, rfl⟩
      simp only [lookupProp, if_neg hk]
      exact ih hin hnd.2

theorem lookupProp_append (l₁ l₂ : List (String × String)) (k : String) :
    lookupProp (l₁ ++ l₂) k = orElseO (lookupProp l₁ k) (lookupProp l₂ k) := by
  induction l₁ with
  | nil => simp [lookupProp, orElseO]
  | cons kv rest ih =>
    by_cases h : kv.1 = k
    · simp [lookupProp, h, orElseO]
    · simp [lookupProp, h, ih]

theorem lookupProp_mergeLayer (layer ps : List (String × String)) (k : String) :
    lookupProp (mergeLayer ps layer) k =
      orElseO (lookupProp (normalizeLayer layer).reverse k) (lookupProp ps k) := by
  induction layer generalizing ps with
  | nil => simp [mergeLayer, normalizeLayer, lookupProp, orElseO]
  | cons kv rest ih =>
    have hstep : mergeLayer ps (kv :: rest) = mergeLayer (insertProp ps (normalizeKey kv.1) kv.2) rest := by
      simp [mergeLayer]
    rw [hstep, ih]
    have hrev : (normalizeLayer (kv :: rest)).reverse =
        (normalizeLayer rest).reverse ++ [(normalizeKey kv.1, kv.2)] := by
      simp [normalizeLayer]
    rw [hrev, lookupProp_append]
    cases hA : lookupProp (normalizeLayer rest).reverse k with
    | some w => simp [orElseO]
    | none =>
      simp only [orElseO]
      by_cases hk : normalizeKey kv.1 = k
      · rw [hk, lookupProp_insertProp_self]
        simp [lookupProp]
      · rw [lookupProp_insertProp_ne _ _ _ _ (fun hh => hk hh.symm)]
        simp [lookupProp, hk]

theorem nodup_propKeys_mergeLayer (layer ps : List (String × String))
    (h : (propKeys ps).Nodup) : (propKeys (mergeLayer ps layer)).Nodup := by
  induction layer generalizing ps with
  | nil => exact h
  | cons kv rest ih =>
    have hstep : mergeLayer ps (kv :: rest) = mergeLayer (insertProp ps (normalizeKey kv.1) kv.2) rest := by
      simp [mergeLayer]
    rw [hstep]
    exact ih _ (nodup_propKeys_insertProp _ _ _ h)

theorem filter_eq_nil_of_not_mem_propKeys (ps : List (String × String)) (k : String)
    (h : k ∉ propKeys ps) : ps.filter (fun kv => kv.1 == k) = [] := by
  induction ps with
  | nil => rfl
  | cons kv rest ih =>
    simp only [propKeys, List.map_cons, List.mem_cons, not_or] at h
    have hne : (kv.1 == k) = false := by
      simp only [beq_eq_false_iff_ne, ne_eq]
      exact fun hh => h.1 hh.symm
    simp only [List.filter_cons, hne, if_neg Bool.false_ne_true]
    exact ih h.2

theorem filter_eq_single_of_lookupProp (ps : List (String × String)) (k v : String)
    (hnd : (propKeys ps).Nodup) (h : lookupProp ps k = some v) :
    ps.filter (fun kv => kv.1 == k) = [(k, v)] := by
  induction ps with
  | nil => simp [lookupProp] at h
  | cons kv rest ih =>
    simp only [propKeys, List.map_cons, List.nodup_cons] at hnd
    by_cases hk : kv.1 = k
    · simp only [lookupProp, if_pos hk, Option.some.injEq] at h
      have hkv : kv = (k, v) := by
        cases kv
        simp_all
      have hnot : k ∉ propKeys rest := by
        rw [← hk]
        exact hnd.1
      rw [hkv]
      simp only [List.filter_cons, beq_self_eq_true, if_pos trivial]
      rw [filter_eq_nil_of_not_mem_propKeys rest k hnot]
    · simp only [lookupProp, if_neg hk] at h
      have hne : (kv.1 == k) = false := by
        simp only [beq_eq_false_iff_ne, ne_eq]
        exact hk
      simp only [List.filter_cons, hne, if_neg Bool.false_ne_true]
      exact ih hnd.2 h

theorem lookupProp_reverse (ps : List (String × String)) (k : String)
    (hnd : (propKeys ps).Nodup) : lookupProp ps.reverse k = lookupProp ps k := by
  have hndr : (propKeys ps.reverse).Nodup := by
    have : propKeys ps.reverse = (propKeys ps).reverse := by
      simp [propKeys]
    rw [this, List.nodup_reverse]
    exact hnd
  cases h : lookupProp ps k with
  | some v =>
    exact lookupProp_of_mem _ _ _ (List.mem_reverse.2 (mem_of_lookupProp _ _ _ h)) hndr
  | none =>
    rw [lookupProp_eq_none] at h ⊢
    intro hmem
    apply h
    have : propKeys ps.reverse = (propKeys ps).reverse := by
      simp [propKeys]
    rw [this] at hmem
    exact List.mem_reverse.1 hmem

theorem nodup_ite_insertProp (c : Prop) [Decidable c] (ps : List (String × String))
    (k v : String) (h : (propKeys ps).Nodup) :
    (propKeys (if c then insertProp ps k v else ps)).Nodup := by
  split
  · exact nodup_propKeys_insertProp ps k v h
  · exact h

theorem nodup_ite2_insertProp (a b : Prop) [Decidable a] [Decidable b]
    (ps : List (String × String)) (k1 v1 k2 v2 : String) (h : (propKeys ps).Nodup) :
    (propKeys
      (if a then insertProp ps k1 v1 else if b then insertProp ps k2 v2 else ps)).Nodup := by
  split
  · exact nodup_propKeys_insertProp ps k1 v1 h
  · exact nodup_ite_insertProp b ps k2 v2 h

theorem nodup_propKeys_basePropertiesMap (systemDir logDir confDir pluginsDir : String)
    (deviceIdSalt : List String) (analysisId : String) (isAllowedToSendFUS : Bool) :
    (propKeys (basePropertiesMap systemDir logDir confDir pluginsDir deviceIdSalt
      analysisId isAllowedToSendFUS)).Nodup := by
  show (["-Didea.headless.enable.statistics", "-Didea.headless.statistics.device.id",
    "-Didea.headless.statistics.salt", "-Didea.config.path", "-Didea.system.path",
    "-Didea.plugins.path", "-Didea.log.path", "-Dqodana.automation.guid",
    "-XX:MaxRAMPercentage"] : List String).Nodup
  decide

theorem nodup_propKeys_withCoverageDir (coverageDir : String) (ps : List (String × String))
    (h : (propKeys ps).Nodup) : (propKeys (withCoverageDir coverageDir ps)).Nodup :=
  nodup_ite_insertProp _ ps _ _ h

theorem nodup_propKeys_withPlugins (plugins : List String) (ps : List (String × String))
    (h : (propKeys ps).Nodup) : (propKeys (withPlugins plugins ps)).Nodup :=
  nodup_ite_insertProp _ ps _ _ h

theorem nodup_propKeys_withDotNet (dn : DotNet) (isContainer : Bool)
    (ps : List (String × String)) (h : (propKeys ps).Nodup) :
    (propKeys (withDotNet dn isContainer ps)).Nodup := by
  simp only [withDotNet]
  apply nodup_ite2_insertProp
  apply nodup_ite_insertProp
  apply nodup_ite_insertProp
  apply nodup_ite2_insertProp
  exact h

theorem nodup_propKeys_defaultProps (ctx : PropContext) (dn : DotNet) (pl : List String) :
    (propKeys (defaultProps ctx dn pl)).Nodup := by
  simp only [defaultProps, getPropertiesMap]
  have h2 := nodup_propKeys_withPlugins pl _
    (nodup_propKeys_withCoverageDir ctx.coverageDir _
      (nodup_propKeys_basePropertiesMap (ctx.cacheDir ++ "/idea/" ++ ctx.versionBranch)
        ctx.logDir ctx.confDir (ctx.cacheDir ++ "/plugins/" ++ ctx.versionBranch)
        ctx.deviceIdSalt ctx.analysisId ctx.isAllowedToSendFUS))
  split
  · exact nodup_propKeys_withDotNet dn ctx.isContainer _ h2
  · exact h2

/-- C1.  Configuration Resolver precedence, defaults < project-declared (yaml) <
explicit (CLI), last writer wins per key: when the defaults map binds `K` to `"1"`,
the (normalised) yaml layer binds `K` to `"2"` and the (normalised) CLI layer binds
`K` to `"3"`, the merged map holds exactly the binding `K = "3"` and the resolved
lines contain `K=3`; with no CLI binding for `K`, the merged map holds exactly
`K = "2"` and the resolved lines contain `K=2`.  The `Nodup` hypotheses say that no
two keys of one layer collide after `-D` normalisation (a Go map cannot repeat a raw
key; with a post-normalisation collision the winner depends on iteration order). -/
theorem getProperties_merge_precedence (ctx : PropContext) (dn : DotNet)
    (plugins : List String) (yamlProps cliProps : List (String × String))
    (flags : List String) (K : String)
    (hynd : (propKeys (normalizeLayer yamlProps)).Nodup)
    (hcnd : (propKeys (normalizeLayer cliProps)).Nodup)
    (hd : lookupProp (defaultProps ctx dn plugins) K = some "1")
    (hy : lookupProp (normalizeLayer yamlProps) K = some "2") :
    (lookupProp (normalizeLayer cliProps) K = some "3" →
      (resolvedProps ctx dn plugins yamlProps cliProps).filter (fun kv => kv.1 == K) =
        [(K, "3")] ∧
      (K ++ "=" ++ "3") ∈ GetProperties ctx dn plugins yamlProps cliProps flags) ∧
    (K ∉ propKeys (normalizeLayer cliProps) →
      (resolvedProps ctx dn plugins yamlProps cliProps).filter (fun kv => kv.1 == K) =
        [(K, "2")] ∧
      (K ++ "=" ++ "2") ∈ GetProperties ctx dn plugins yamlProps cliProps flags) := by
  have hdnd := nodup_propKeys_defaultProps ctx dn plugins
  have hnd1 := nodup_propKeys_mergeLayer yamlProps _ hdnd
  have hnd2 : (propKeys (resolvedProps ctx dn plugins yamlProps cliProps)).Nodup :=
    nodup_propKeys_mergeLayer cliProps _ hnd1
  have hy1 : lookupProp (mergeLayer (defaultProps ctx dn plugins) yamlProps) K = some "2" := by
    rw [lookupProp_mergeLayer, lookupProp_reverse _ _ hynd, hy]
    rfl
  have hmem : ∀ v : String,
      lookupProp (resolvedProps ctx dn plugins yamlProps cliProps) K = some v →
      (K ++ "=" ++ v) ∈ GetProperties ctx dn plugins yamlProps cliProps flags := by
    intro v hv
    have hpair := mem_of_lookupProp _ _ _ hv
    have hperm := List.perm_insertionSort (fun a b : String => a ≤ b)
      (baseLines ctx flags ++
        (resolvedProps ctx dn plugins yamlProps cliProps).map fmtProp)
    rw [GetProperties, hperm.mem_iff]
    apply List.mem_append_right
    exact List.mem_map.2 ⟨(K, v), hpair, rfl⟩
  constructor
  · intro hc
    have hres : lookupProp (resolvedProps ctx dn plugins yamlProps cliProps) K = some "3" := by
      rw [resolvedProps, lookupProp_mergeLayer, lookupProp_reverse _ _ hcnd, hc]
      rfl
    exact ⟨filter_eq_single_of_lookupProp _ _ _ hnd2 hres, hmem _ hres⟩
  · intro hnc
    have hcnone : lookupProp (normalizeLayer cliProps).reverse K = none := by
      rw [lookupProp_eq_none]
      intro hmemk
      apply hnc
      have hkeys : propKeys (normalizeLayer cliProps).reverse =
          (propKeys (normalizeLayer cliProps)).reverse := by
        simp [propKeys]
      rw [hkeys] at hmemk
      exact List.mem_reverse.1 hmemk
    have hres : lookupProp (resolvedProps ctx dn plugins yamlProps cliProps) K = some "2" := by
      rw [resolvedProps, lookupProp_mergeLayer, hcnone, hy1]
      rfl
    exact ⟨filter_eq_single_of_lookupProp _ _ _ hnd2 hres, hmem _ hres⟩

/-- Witness for C1 at a concrete input: run identifier (`-Dqodana.automation.guid`)
defaulting to `"1"`, yaml override `"2"`, CLI override `"3"`. -/
theorem getProperties_merge_precedence_witness :
    (resolvedProps ctxGuidOne dotNetEmpty [] [("-Dqodana.automation.guid", "2")]
        [("-Dqodana.automation.guid", "3")]).filter
      (fun kv => kv.1 == "-Dqodana.automation.guid") =
        [("-Dqodana.automation.guid", "3")] ∧
    ("-Dqodana.automation.guid" ++ "=" ++ "3") ∈
      GetProperties ctxGuidOne dotNetEmpty [] [("-Dqodana.automation.guid", "2")]
        [("-Dqodana.automation.guid", "3")] [] :=
  (getProperties_merge_precedence ctxGuidOne dotNetEmpty []
    [("-Dqodana.automation.guid", "2")] [("-Dqodana.automation.guid", "3")] []
    "-Dqodana.automation.guid" (by decide) (by decide) (by decide) (by decide)).1
    (by decide)

/-!  ## Lemmas for C2: sortedness, flag deduplication, output determinism  -/

theorem Contains_iff_mem (s : List String) (x : String) : Contains s x = true ↔ x ∈ s := by
  induction s with
  | nil => simp [Contains]
  | cons v rest ih =>
    by_cases h : v = x
    · simp [Contains, h]
    · have hne : x ≠ v := fun hh => h hh.symm
      simp [Contains, h, ih, hne]

theorem lookupProp_perm (l1 l2 : List (String × String)) (h : l1.Perm l2)
    (hnd : (propKeys l1).Nodup) (k : String) : lookupProp l1 k = lookupProp l2 k := by
  have hkp : (propKeys l1).Perm (propKeys l2) := h.map Prod.fst
  have hnd2 : (propKeys l2).Nodup := hkp.nodup_iff.1 hnd
  cases hl : lookupProp l1 k with
  | some v =>
    exact (lookupProp_of_mem l2 k v (h.mem_iff.1 (mem_of_lookupProp _ _ _ hl)) hnd2).symm
  | none =>
    rw [lookupProp_eq_none] at hl
    rw [eq_comm, lookupProp_eq_none]
    exact fun hm => hl (hkp.mem_iff.2 hm)

theorem perm_of_lookup_agree (l1 l2 : List (String × String))
    (hnd1 : (propKeys l1).Nodup) (hnd2 : (propKeys l2).Nodup)
    (hagree : ∀ k, lookupProp l1 k = lookupProp l2 k) : l1.Perm l2 := by
  rw [List.perm_ext_iff_of_nodup (hnd1.of_map Prod.fst) (hnd2.of_map Prod.fst)]
  intro kv
  cases kv with
  | mk k v =>
    constructor
    · intro hm
      exact mem_of_lookupProp _ _ _ ((hagree k).symm.trans (lookupProp_of_mem _ _ _ hm hnd1))
    · intro hm
      exact mem_of_lookupProp _ _ _ ((hagree k).trans (lookupProp_of_mem _ _ _ hm hnd2))

theorem insertionSort_eq_of_perm (l1 l2 : List String) (h : l1.Perm l2) :
    List.insertionSort (fun a b : String => a ≤ b) l1 =
      List.insertionSort (fun a b : String => a ≤ b) l2 :=
  List.eq_of_perm_of_sorted
    (((List.perm_insertionSort _ l1).trans h).trans (List.perm_insertionSort _ l2).symm)
    (List.sorted_insertionSort _ l1)
    (List.sorted_insertionSort _ l2)

theorem count_mergeFlags (flags lines : List String) (f : String) :
    (mergeFlags lines flags).count f =
      if f ∈ lines then lines.count f else if f ∈ flags ∧ f ≠ "" then 1 else 0 := by
  induction flags generalizing lines with
  | nil =>
    simp only [mergeFlags, List.foldl_nil]
    by_cases hf : f ∈ lines
    · rw [if_pos hf]
    · rw [if_neg hf]
      simp [List.count_eq_zero, hf]
  | cons g rest ih =>
    have hstep : mergeFlags lines (g :: rest) =
        mergeFlags (if g ≠ "" ∧ ¬ Contains lines g then lines ++ [g] else lines) rest := by
      simp [mergeFlags]
    rw [hstep]
    by_cases hg : g ≠ "" ∧ ¬ Contains lines g
    · rw [if_pos hg, ih]
      by_cases hfg : f = g
      · subst hfg
        have hfl : f ∉ lines := fun hm => hg.2 ((Contains_iff_mem lines f).2 hm)
        rw [if_pos (List.mem_append_right _ (List.mem_singleton.2 rfl))]
        rw [if_neg hfl, if_pos ⟨List.mem_cons_self _ _, hg.1⟩]
        rw [List.count_append]
        have h0 : lines.count f = 0 := List.count_eq_zero.2 hfl
        rw [h0]
        simp
      · have hmem : (f ∈ lines ++ [g]) ↔ f ∈ lines := by
          simp [List.mem_append, hfg]
        have hcnt : (lines ++ [g]).count f = lines.count f := by
          rw [List.count_append]
          have h0 : ([g] : List String).count f = 0 := by
            simp [List.count_eq_zero, hfg]
          rw [h0, Nat.add_zero]
        rw [hcnt]
        by_cases hfl : f ∈ lines
        · rw [if_pos (hmem.2 hfl), if_pos hfl]
        · rw [if_neg (fun hm => hfl (hmem.1 hm)), if_neg hfl]
          have hgr : (f ∈ g :: rest) ↔ f ∈ rest := by
            simp [hfg]
          simp only [hgr]
    · rw [if_neg hg, ih]
      by_cases hfl : f ∈ lines
      · rw [if_pos hfl, if_pos hfl]
      · rw [if_neg hfl, if_neg hfl]
        by_cases hfg : f = g
        · subst hfg
          have hcases : f = "" ∨ Contains lines f = true := by
            by_cases he : f = ""
            · exact Or.inl he
            · right
              by_contra hcf
              exact hg ⟨he, fun hc => hcf hc⟩
          rcases hcases with he | hc
          · simp [he]
          · exact absurd ((Contains_iff_mem lines f).1 hc) hfl
        · have hgr : (f ∈ g :: rest) ↔ f ∈ rest := by
            simp [hfg]
          simp only [hgr]

theorem resolvedProps_perm (ctx : PropContext) (dn : DotNet) (plugins : List String)
    (y c y' c' : List (String × String)) (hy : y.Perm y') (hc : c.Perm c')
    (hynd : (propKeys (normalizeLayer y)).Nodup)
    (hcnd : (propKeys (normalizeLayer c)).Nodup) :
    (resolvedProps ctx dn plugins y' c').Perm (resolvedProps ctx dn plugins y c) := by
  have hdnd := nodup_propKeys_defaultProps ctx dn plugins
  have hny : (normalizeLayer y).Perm (normalizeLayer y') := hy.map _
  have hnc : (normalizeLayer c).Perm (normalizeLayer c') := hc.map _
  have hynd' : (propKeys (normalizeLayer y')).Nodup :=
    ((hny.map Prod.fst).nodup_iff).1 hynd
  have hcnd' : (propKeys (normalizeLayer c')).Nodup :=
    ((hnc.map Prod.fst).nodup_iff).1 hcnd
  have hndyc : (propKeys (resolvedProps ctx dn plugins y c)).Nodup :=
    nodup_propKeys_mergeLayer c _ (nodup_propKeys_mergeLayer y _ hdnd)
  have hndyc' : (propKeys (resolvedProps ctx dn plugins y' c')).Nodup :=
    nodup_propKeys_mergeLayer c' _ (nodup_propKeys_mergeLayer y' _ hdnd)
  apply perm_of_lookup_agree _ _ hndyc' hndyc
  intro k
  have hrevy : lookupProp (normalizeLayer y').reverse k = lookupProp (normalizeLayer y).reverse k := by
    rw [lookupProp_reverse _ _ hynd', lookupProp_reverse _ _ hynd]
    exact lookupProp_perm _ _ hny.symm hynd' k
  have hrevc : lookupProp (normalizeLayer c').reverse k = lookupProp (normalizeLayer c).reverse k := by
    rw [lookupProp_reverse _ _ hcnd', lookupProp_reverse _ _ hcnd]
    exact lookupProp_perm _ _ hnc.symm hcnd' k
  rw [resolvedProps, resolvedProps, lookupProp_mergeLayer, lookupProp_mergeLayer,
    lookupProp_mergeLayer, lookupProp_mergeLayer, hrevy, hrevc]

/-- C2 counterexample.  Two yaml maps with the same bindings (a permutation — the Go
map iteration order is arbitrary) produce different resolved outputs: the keys `"foo"`
and `"-Dfoo"` collide after `-D` normalisation, and the later iteration wins.  So the
output is not a function of the effective (unordered) inputs, as the claim states. -/
theorem getProperties_map_order_counterexample :
    ([("foo", "a"), ("-Dfoo", "b")] : List (String × String)).Perm
      [("-Dfoo", "b"), ("foo", "a")] ∧
    GetProperties ctxEmpty dotNetEmpty [] [("foo", "a"), ("-Dfoo", "b")] [] [] ≠
      GetProperties ctxEmpty dotNetEmpty [] [("-Dfoo", "b"), ("foo", "a")] [] [] := by
  constructor
  · decide
  · intro h
    have h1 : "-Dfoo=b" ∈ GetProperties ctxEmpty dotNetEmpty []
        [("foo", "a"), ("-Dfoo", "b")] [] [] := by
      rw [GetProperties, (List.perm_insertionSort _ _).mem_iff]
      decide
    have h2 : "-Dfoo=b" ∉ GetProperties ctxEmpty dotNetEmpty []
        [("-Dfoo", "b"), ("foo", "a")] [] [] := by
      rw [GetProperties, (List.perm_insertionSort _ _).mem_iff]
      decide
    rw [h] at h1
    exact h2 h1

/-- C2 as amended.  The resolved line sequence is always lexically sorted; the
explicit raw-flag merge deduplicates by exact string match (a flag not already
present appears exactly once no matter how often it repeats); and the output is a
function of the unordered layer contents — byte-identical across any Go map
iteration orders (modelled as permutations of the layers) — provided no two keys of
one layer collide after `-D` normalisation (the counterexample shows a collision
makes the output order-dependent). -/
theorem getProperties_sorted_dedup_deterministic (ctx : PropContext) (dn : DotNet)
    (plugins : List String) (y c y' c' : List (String × String)) (flags : List String)
    (hy : y.Perm y') (hc : c.Perm c')
    (hynd : (propKeys (normalizeLayer y)).Nodup)
    (hcnd : (propKeys (normalizeLayer c)).Nodup) :
    List.Sorted (fun a b : String => a ≤ b) (GetProperties ctx dn plugins y c flags) ∧
    GetProperties ctx dn plugins y' c' flags = GetProperties ctx dn plugins y c flags ∧
    ∀ lines fl f, (mergeFlags lines fl).count f =
      if f ∈ lines then lines.count f else if f ∈ fl ∧ f ≠ "" then 1 else 0 := by
  refine ⟨List.sorted_insertionSort _ _, ?_, fun lines fl f => count_mergeFlags fl lines f⟩
  apply insertionSort_eq_of_perm
  exact (resolvedProps_perm ctx dn plugins y c y' c' hy hc hynd hcnd).map fmtProp
    |>.append_left (baseLines ctx flags)

/-- Witness for C2 at a concrete input. -/
theorem getProperties_sorted_dedup_deterministic_witness :
    List.Sorted (fun a b : String => a ≤ b)
      (GetProperties ctxEmpty dotNetEmpty [] [("a", "1")] [("b", "2")] ["-Xflag"]) :=
  (getProperties_sorted_dedup_deterministic ctxEmpty dotNetEmpty [] [("a", "1")]
    [("b", "2")] [("a", "1")] [("b", "2")] ["-Xflag"] (by decide) (by decide)
    (by decide) (by decide)).1

/-!  ## C10: `platform.Append` / `platform.Contains`  -/

/-- C10.  For a non-empty variadic list `e :: rest`, `Append` returns the slice
unchanged when `e` is already present, appends exactly `e` otherwise, ignores every
element after the first, and is idempotent in its first element; `Contains` decides
exact membership. -/
theorem append_contains_spec (s : List String) (e : String) (rest : List String) :
    (Contains s e = true → Append s (e :: rest) = s) ∧
    (Contains s e = false → Append s (e :: rest) = s ++ [e]) ∧
    Append s (e :: rest) = Append s [e] ∧
    Append (Append s (e :: rest)) (e :: rest) = Append s (e :: rest) ∧
    (Contains s e = true ↔ e ∈ s) := by
  refine ⟨?_, ?_, rfl, ?_, Contains_iff_mem s e⟩
  · intro h
    simp [Append, h]
  · intro h
    simp [Append, h]
  · by_cases h : Contains s e = true
    · simp [Append, h]
    · have hs : Append s (e :: rest) = s ++ [e] := by
        simp [Append, h]
      have hc : Contains (s ++ [e]) e = true :=
        (Contains_iff_mem _ _).2 (List.mem_append_right _ (List.mem_singleton.2 rfl))
      rw [hs]
      simp [Append, hc]

/-- Witness for C10: both branches of `Append` at concrete inputs. -/
theorem append_contains_spec_witness :
    Append ["x"] ["x", "y"] = ["x"] ∧ Append ["z"] ["x", "y"] = ["z", "x"] :=
  ⟨(append_contains_spec ["x"] "x" ["y"]).1 (by decide),
    (append_contains_spec ["z"] "x" ["y"]).2.1 (by decide)⟩

/-!  ## C7: device id and salt derivation  -/

/-- C7.  With the `SALT`/`DEVICEID` environment values absent, `GetDeviceIdSalt` is a
total pure function of the remote source-control URL: it always returns the pair
`[deviceIdOfUrl md5hex url, saltOfUrl md5hex url]` (two fixed functions of the URL
alone, so equal URLs give equal pairs on every invocation, and no failure is
possible), and an empty URL falls back to the fixed all-zero placeholder hash before
derivation. -/
theorem getDeviceIdSalt_pure_function (md5hex : String → String) (url : String) :
    GetDeviceIdSalt md5hex "" "" url = [deviceIdOfUrl md5hex url, saltOfUrl md5hex url] ∧
    remoteHash md5hex "" = placeholderHash ∧
    (GetDeviceIdSalt md5hex "" "" url).length = 2 :=
  ⟨rfl, rfl, rfl⟩

/-!  ## C5: the bounded content read (`readFile`, `limitKb`)  -/

/-- C5, code bug.  `recognizeDirLanguages` passes `limitKb = 64` to `readFile`, where
it is applied as a BYTE limit (`io.LimitReader(f, limit)`), not a kibibyte count: the
sample of every file is its 64-byte prefix.  The claim and the spec say the sample is
the 64 KiB (65536-byte) prefix — under which a 100-byte file would be sampled in
full — and that the whole file is never read; a 100-byte file refutes the 64 KiB
bound (only 64 of 100 bytes are read) and a 10-byte file is read whole. -/
theorem readFile_limitKb_bytes :
    readFile (List.range 100) limitKb = (List.range 100).take 64 ∧
    (readFile (List.range 100) limitKb).length = 64 ∧
    readFile (List.range 100) limitKb ≠ (List.range 100).take 65536 ∧
    readFile (List.range 10) limitKb = List.range 10 ∧
    ∀ c : List Nat, readFile c limitKb = c.take 64 := by
  refine ⟨rfl, by decide, by decide, by decide, fun c => rfl⟩

/-!  ## C8: the .NET legacy target-framework denylist  -/

theorem lookupProp_ite_insertProp (c : Prop) [Decidable c] (ps : List (String × String))
    (k v k' : String) (h : k' ≠ k) :
    lookupProp (if c then insertProp ps k v else ps) k' = lookupProp ps k' := by
  split
  · exact lookupProp_insertProp_ne ps k v k' h
  · rfl

theorem lookupProp_ite2_insertProp (a b : Prop) [Decidable a] [Decidable b]
    (ps : List (String × String)) (k1 v1 k2 v2 k' : String) (h1 : k' ≠ k1) (h2 : k' ≠ k2) :
    lookupProp (if a then insertProp ps k1 v1 else if b then insertProp ps k2 v2 else ps) k' =
      lookupProp ps k' := by
  split
  · exact lookupProp_insertProp_ne ps k1 v1 k' h1
  · exact lookupProp_ite_insertProp b ps k2 v2 k' h2

theorem lookupProp_withDotNet_targetFrameworks (dn : DotNet) (isContainer : Bool)
    (ps : List (String × String))
    (hps : lookupProp ps "-Dqodana.net.targetFrameworks" = none) :
    lookupProp (withDotNet dn isContainer ps) "-Dqodana.net.targetFrameworks" =
      (if dn.frameworks ≠ "" then some (QuoteIfSpace dn.frameworks)
       else if isContainer then some dotNetFrameworksDenylist
       else none) := by
  simp only [withDotNet]
  have hP3 : lookupProp
      (if dn.platformName ≠ "" then
        insertProp
          (if dn.configuration ≠ "" then
            insertProp
              (if dn.project ≠ "" then
                insertProp ps "-Dqodana.net.project" (QuoteIfSpace dn.project)
              else if dn.solution ≠ "" then
                insertProp ps "-Dqodana.net.solution" (QuoteIfSpace dn.solution)
              else ps)
              "-Dqodana.net.configuration" (QuoteIfSpace dn.configuration)
          else
            if dn.project ≠ "" then
              insertProp ps "-Dqodana.net.project" (QuoteIfSpace dn.project)
            else if dn.solution ≠ "" then
              insertProp ps "-Dqodana.net.solution" (QuoteIfSpace dn.solution)
            else ps)
          "-Dqodana.net.platform" (QuoteIfSpace dn.platformName)
      else
        if dn.configuration ≠ "" then
          insertProp
            (if dn.project ≠ "" then
              insertProp ps "-Dqodana.net.project" (QuoteIfSpace dn.project)
            else if dn.solution ≠ "" then
              insertProp ps "-Dqodana.net.solution" (QuoteIfSpace dn.solution)
            else ps)
            "-Dqodana.net.configuration" (QuoteIfSpace dn.configuration)
        else
          if dn.project ≠ "" then
            insertProp ps "-Dqodana.net.project" (QuoteIfSpace dn.project)
          else if dn.solution ≠ "" then
            insertProp ps "-Dqodana.net.solution" (QuoteIfSpace dn.solution)
          else ps) "-Dqodana.net.targetFrameworks" = none := by
    rw [lookupProp_ite_insertProp _ _ _ _ _ (by decide),
      lookupProp_ite_insertProp _ _ _ _ _ (by decide),
      lookupProp_ite2_insertProp _ _ _ _ _ _ _ _ (by decide) (by decide)]
    exact hps
  by_cases hfw : dn.frameworks ≠ ""
  · rw [if_pos hfw, if_pos hfw, lookupProp_insertProp_self]
  · rw [if_neg hfw, if_neg hfw]
    by_cases hcont : isContainer
    · rw [if_pos hcont, if_pos hcont, lookupProp_insertProp_self]
    · rw [if_neg hcont, if_neg hcont]
      exact hP3

/-- C8.  In a `"Rider"` (the .NET product family) run, the fixed legacy
target-framework denylist is bound to `-Dqodana.net.targetFrameworks` if and only if
the run is inside the isolated container environment and no Frameworks value is
present in the .NET options (`dotNet.Frameworks` carries both the explicit setting
and any environment-supplied override, which are populated by the caller).  The side
hypothesis only excludes the degenerate case of a user explicitly passing the
denylist string itself as the Frameworks value. -/
theorem getPropertiesMap_dotnet_denylist (systemDir logDir confDir pluginsDir : String)
    (dn : DotNet) (deviceIdSalt : List String) (plugins : List String)
    (analysisId coverageDir : String) (fus isContainer : Bool)
    (hq : QuoteIfSpace dn.frameworks ≠ dotNetFrameworksDenylist) :
    lookupProp (getPropertiesMap "Rider" systemDir logDir confDir pluginsDir dn
      deviceIdSalt plugins analysisId coverageDir fus isContainer)
      "-Dqodana.net.targetFrameworks" = some dotNetFrameworksDenylist ↔
    (isContainer = true ∧ dn.frameworks = "") := by
  have hbase : lookupProp (basePropertiesMap systemDir logDir confDir pluginsDir
      deviceIdSalt analysisId fus) "-Dqodana.net.targetFrameworks" = none := rfl
  have hplug : lookupProp (withPlugins plugins (withCoverageDir coverageDir
      (basePropertiesMap systemDir logDir confDir pluginsDir deviceIdSalt analysisId fus)))
      "-Dqodana.net.targetFrameworks" = none := by
    rw [withPlugins, withCoverageDir,
      lookupProp_ite_insertProp _ _ _ _ _ (by decide),
      lookupProp_ite_insertProp _ _ _ _ _ (by decide)]
    exact hbase
  have hmain : lookupProp (getPropertiesMap "Rider" systemDir logDir confDir pluginsDir dn
      deviceIdSalt plugins analysisId coverageDir fus isContainer)
      "-Dqodana.net.targetFrameworks" =
      (if dn.frameworks ≠ "" then some (QuoteIfSpace dn.frameworks)
       else if isContainer then some dotNetFrameworksDenylist
       else none) := by
    simp only [getPropertiesMap, if_pos rfl]
    exact lookupProp_withDotNet_targetFrameworks dn isContainer _ hplug
  rw [hmain]
  by_cases hfw : dn.frameworks ≠ ""
  · rw [if_pos hfw]
    constructor
    · intro hsome
      exact absurd (Option.some.inj hsome) hq
    · intro hcond
      exact absurd hcond.2 hfw
  · rw [if_neg hfw]
    push_neg at hfw
    by_cases hcont : isContainer
    · rw [if_pos hcont]
      exact ⟨fun _ => ⟨hcont, hfw⟩, fun _ => rfl⟩
    · rw [if_neg hcont]
      constructor
      · intro hnone
        exact absurd hnone (by simp)
      · intro hcond
        exact absurd hcond.1 hcont

/-- Witness for C8: inside a container with no Frameworks value, the denylist is
injected. -/
theorem getPropertiesMap_dotnet_denylist_witness :
    lookupProp (getPropertiesMap "Rider" "" "" "" "" dotNetEmpty [] [] "" "" false true)
      "-Dqodana.net.targetFrameworks" = some dotNetFrameworksDenylist :=
  (getPropertiesMap_dotnet_denylist "" "" "" "" dotNetEmpty [] [] "" "" false true
    (by decide)).2 ⟨rfl, rfl⟩

/-!  ## Lemmas for the Language Scanner claims (C3, C4, C6)  -/

theorem relSegments_append (pp l : List String) : relSegments pp (pp ++ l) = some l := by
  unfold relSegments
  rw [if_pos, List.drop_left]
  rw [List.isPrefixOf_iff_prefix]
  exact List.prefix_append pp l

theorem snd_ite4_nil (c1 c2 c3 c4 : Prop) [Decidable c1] [Decidable c2] [Decidable c3]
    [Decidable c4] (o1 o2 o3 o4 o5 : List (String × Nat)) :
    (if c1 then (o1, WalkRet.nil) else if c2 then (o2, WalkRet.nil)
     else if c3 then (o3, WalkRet.nil)
     else if c4 then (o4, WalkRet.nil) else (o5, WalkRet.nil)).2 = WalkRet.nil := by
  split_ifs <;> rfl

theorem recognizeWalkFn_ne_fail (e : Enry) (pp path : List String)
    (entry : Option FsEntry) (errFlag : Bool) (out : List (String × Nat)) :
    (recognizeWalkFn e pp path entry errFlag out).2 ≠ WalkRet.fail := by
  unfold recognizeWalkFn
  repeat' split
  all_goals simp [snd_ite4_nil]

mutual

theorem walkEntry_recognize_ne_fail (e : Enry) (pp path : List String) (fe : FsEntry)
    (s : List (String × Nat)) :
    (walkEntry (recognizeWalkFn e pp) path fe s).2 ≠ WalkRet.fail := by
  cases fe with
  | file n se re c =>
    rw [walkEntry]
    exact recognizeWalkFn_ne_fail e pp path _ false s
  | dir n se de children =>
    rw [walkEntry]
    try dsimp only
    split
    · exact recognizeWalkFn_ne_fail e pp path _ de s
    · exact walkChildren_recognize_ne_fail e pp path children _

theorem walkChildren_recognize_ne_fail (e : Enry) (pp dirPath : List String)
    (cs : List FsEntry) (s : List (String × Nat)) :
    (walkChildren (recognizeWalkFn e pp) dirPath cs s).2 ≠ WalkRet.fail := by
  cases cs with
  | nil =>
    rw [walkChildren]
    simp
  | cons c rest =>
    rw [walkChildren]
    by_cases hse : c.statErr = true
    · rw [if_pos hse]
      dsimp only
      cases h : (recognizeWalkFn e pp (dirPath ++ [c.entryName]) none true s).2 with
      | fail => exact absurd h (recognizeWalkFn_ne_fail e pp _ _ _ _)
      | nil =>
        simp only [h]
        exact walkChildren_recognize_ne_fail e pp dirPath rest _
      | skipDir =>
        simp only [h]
        exact walkChildren_recognize_ne_fail e pp dirPath rest _
    · rw [if_neg hse]
      dsimp only
      cases h : (walkEntry (recognizeWalkFn e pp) (dirPath ++ [c.entryName]) c s).2 with
      | fail => exact absurd h (walkEntry_recognize_ne_fail e pp _ c s)
      | nil =>
        simp only [h]
        exact walkChildren_recognize_ne_fail e pp dirPath rest _
      | skipDir =>
        simp only [h]
        by_cases hdir : c.isDirE = true
        · rw [if_pos hdir]
          exact walkChildren_recognize_ne_fail e pp dirPath rest _
        · rw [if_neg hdir]
          simp

end

theorem filepathWalk_recognize_ret (e : Enry) (pp rootPath : List String) (root : FsEntry)
    (s : List (String × Nat)) :
    (filepathWalk (recognizeWalkFn e pp) rootPath root s).2 = WalkRet.nil := by
  unfold filepathWalk
  split
  · have hne := recognizeWalkFn_ne_fail e pp rootPath none true s
    cases h : (recognizeWalkFn e pp rootPath none true s).2 with
    | nil => simp [h]
    | skipDir => simp [h]
    | fail => exact absurd h hne
  · have hne := walkEntry_recognize_ne_fail e pp rootPath root s
    cases h : (walkEntry (recognizeWalkFn e pp) rootPath root s).2 with
    | nil => simp [h]
    | skipDir => simp [h]
    | fail => exact absurd h hne

/-- C3 counterexample.  A project root whose directory read fails (and likewise one
whose `lstat` fails) does NOT surface an error: the walk callback answers every error
with `filepath.SkipDir` (configurator.go lines 102-104), and `filepath.Walk` converts
a root-level `SkipDir` into a `nil` error, so `recognizeDirLanguages` returns an
empty result with no error — refuting "fails with an error when the project root is
unreadable". -/
theorem recognizeDirLanguages_root_error_counterexample :
    recognizeDirLanguages enryByName ["p"] (FsEntry.dir "p" false true []) =
      Except.ok [] ∧
    recognizeDirLanguages enryByName ["p"] (FsEntry.dir "p" true false []) =
      Except.ok [] ∧
    recognizeDirLanguages enryByName ["p"] (FsEntry.dir "p" false true []) ≠
      Except.error () :=
  ⟨rfl, rfl, fun h => Except.noConfusion h⟩

/-- C3 as amended.  `recognizeDirLanguages` never returns an error at all: the walk
callback maps every error (root-level included) to `SkipDir`, which `filepath.Walk`
swallows, so a root-level failure yields `ok` with an empty count map instead of
surfacing; and a read error on a non-root entry only causes that entry to be skipped
while the scan of its siblings continues, with the count state unchanged. -/
theorem recognizeDirLanguages_never_fails (e : Enry) (pp : List String) (root : FsEntry) :
    (∃ out, recognizeDirLanguages e pp root = Except.ok out) ∧
    (∀ c rest dirPath s, c.statErr = true →
      walkChildren (recognizeWalkFn e pp) dirPath (c :: rest) s =
        walkChildren (recognizeWalkFn e pp) dirPath rest s) := by
  constructor
  · refine ⟨(filepathWalk (recognizeWalkFn e pp) pp root []).1, ?_⟩
    unfold recognizeDirLanguages
    simp [filepathWalk_recognize_ret]
  · intro c rest dirPath s hse
    rw [walkChildren, if_pos hse]
    rfl

/-- Witness for C3's amended theorem at a concrete tree: the scan succeeds and an
entry with a failing `lstat` is skipped with the scan continuing. -/
theorem recognizeDirLanguages_never_fails_witness :
    (∃ out, recognizeDirLanguages enryByName ["p"] treeTie = Except.ok out) ∧
    walkChildren (recognizeWalkFn enryByName ["p"]) ["p"]
      [FsEntry.file "bad" true false [], FsEntry.file "A" false false [1]] [] =
      walkChildren (recognizeWalkFn enryByName ["p"]) ["p"]
        [FsEntry.file "A" false false [1]] [] :=
  ⟨(recognizeDirLanguages_never_fails enryByName ["p"] treeTie).1,
    (recognizeDirLanguages_never_fails enryByName ["p"] treeTie).2
      (FsEntry.file "bad" true false []) [FsEntry.file "A" false false [1]] ["p"] [] rfl⟩

/-- C6.  A file under an excluded tooling directory (`.idea`, `.vscode`, `.git` as a
path segment), or one the classifiers flag as vendored, dotfile, documentation,
configuration, or generated (from the path, or from its sampled content), never
changes the language counter state, whatever its content: the walk callback leaves
`out` untouched for it. -/
theorem recognizeWalkFn_excluded_no_count (e : Enry) (pp : List String) (seg : String)
    (segs : List String) (entry : Option FsEntry) (errFlag : Bool)
    (out : List (String × Nat)) :
    (isInIgnoredDirectory (pp ++ seg :: segs) = true ∨
        e.isVendor (String.intercalate "/" (seg :: segs)) = true ∨
        e.isDotFile (String.intercalate "/" (seg :: segs)) = true ∨
        e.isDocumentation (String.intercalate "/" (seg :: segs)) = true ∨
        e.isConfiguration (String.intercalate "/" (seg :: segs)) = true ∨
        e.isGeneratedNoContent (String.intercalate "/" (seg :: segs)) = true →
      (recognizeWalkFn e pp (pp ++ seg :: segs) entry errFlag out).1 = out) ∧
    (∀ fe : FsEntry,
      (∀ c, readFileE fe = some c →
        e.isGenerated (String.intercalate "/" (seg :: segs)) c = true) →
      (recognizeWalkFn e pp (pp ++ seg :: segs) (some fe) errFlag out).1 = out) := by
  constructor
  · intro h
    by_cases herr : errFlag = true
    · rw [recognizeWalkFn.eq_def, if_pos herr]
    · rw [recognizeWalkFn.eq_def, if_neg herr]
      cases entry with
      | none => rfl
      | some fe =>
        dsimp only
        by_cases hdir : fe.isDirE = true
        · rw [if_pos hdir]
        · rw [if_neg hdir]
          simp only [relSegments_append]
          rw [if_pos h]
  · intro fe hgen
    by_cases herr : errFlag = true
    · rw [recognizeWalkFn.eq_def, if_pos herr]
    · rw [recognizeWalkFn.eq_def, if_neg herr]
      dsimp only
      by_cases hdir : fe.isDirE = true
      · rw [if_pos hdir]
      · rw [if_neg hdir]
        simp only [relSegments_append]
        by_cases hcls : isInIgnoredDirectory (pp ++ seg :: segs) = true ∨
            e.isVendor (String.intercalate "/" (seg :: segs)) = true ∨
            e.isDotFile (String.intercalate "/" (seg :: segs)) = true ∨
            e.isDocumentation (String.intercalate "/" (seg :: segs)) = true ∨
            e.isConfiguration (String.intercalate "/" (seg :: segs)) = true ∨
            e.isGeneratedNoContent (String.intercalate "/" (seg :: segs)) = true
        · rw [if_pos hcls]
        · rw [if_neg hcls]
          cases hread : readFileE fe with
          | none => rfl
          | some content =>
            dsimp only
            rw [if_pos (hgen content hread)]

/-- Witness for C6: a vendored file and a content-classified generated file leave the
counter state unchanged. -/
theorem recognizeWalkFn_excluded_no_count_witness :
    (recognizeWalkFn
      ⟨fun _ => true, fun _ => false, fun _ => false, fun _ => false,
        fun _ => false, fun _ _ => false, fun n _ => n, fun _ => EnryType.programming⟩
      ["p"] (["p"] ++ "v" :: []) (some (FsEntry.file "v" false false [1])) false
      [("Go", 2)]).1 = [("Go", 2)] ∧
    (recognizeWalkFn
      ⟨fun _ => false, fun _ => false, fun _ => false, fun _ => false,
        fun _ => false, fun _ _ => true, fun n _ => n, fun _ => EnryType.programming⟩
      ["p"] (["p"] ++ "g" :: []) (some (FsEntry.file "g" false false [1])) false
      [("Go", 2)]).1 = [("Go", 2)] :=
  ⟨(recognizeWalkFn_excluded_no_count _ ["p"] "v" []
      (some (FsEntry.file "v" false false [1])) false [("Go", 2)]).1
      (Or.inr (Or.inl rfl)),
    (recognizeWalkFn_excluded_no_count _ ["p"] "g" []
      (some (FsEntry.file "g" false false [1])) false [("Go", 2)]).2
      (FsEntry.file "g" false false [1]) (fun _ _ => rfl)⟩

/-- C4 counterexample.  Two runs of the Scanner on the same unmodified tree can
return different orderings: `treeTie` yields the counter map
`[("A",1),("B",1)]`, and both `["A","B"]` and `["B","A"]` are outcomes of the
ranking (configurator.go lines 159-175 pour the Go map into a slice in iteration
order and `sort.Slice` compares only the counts, so equal counts have no
tie-break).  The ordering is therefore not a function of the tree contents. -/
theorem scannerOutcome_tie_counterexample :
    ScannerOutcome enryByName ["p"] treeTie ["A", "B"] ∧
    ScannerOutcome enryByName ["p"] treeTie ["B", "A"] ∧
    (["A", "B"] : List String) ≠ ["B", "A"] := by
  refine ⟨⟨[("A", 1), ("B", 1)], [("A", 1), ("B", 1)], rfl, List.Perm.refl _, rfl⟩,
    ⟨[("A", 1), ("B", 1)], [("B", 1), ("A", 1)], rfl, ?_, rfl⟩, by decide⟩
  exact List.Perm.swap ("B", 1) ("A", 1) []

/-- C4 as amended.  Re-running the Scanner on an unmodified tree always yields the
same multiset of ranked languages (the counter map is a deterministic function of the
tree, and every outcome is a permutation of it sorted by descending count), but the
relative order of equal-count languages is not deterministic; the ordering is unique
whenever no tie occurs. -/
theorem scannerOutcome_perm_deterministic (e : Enry) (pp : List String) (root : FsEntry)
    (r1 r2 : List String) (h1 : ScannerOutcome e pp root r1)
    (h2 : ScannerOutcome e pp root r2) : r1.Perm r2 := by
  obtain ⟨c1, p1, hc1, hp1, hr1⟩ := h1
  obtain ⟨c2, p2, hc2, hp2, hr2⟩ := h2
  rw [hc1] at hc2
  have hceq : c1 = c2 := Except.ok.inj hc2
  subst hceq hr1 hr2
  apply List.Perm.map
  exact ((List.perm_insertionSort geCount p1).trans (hp1.symm.trans hp2)).trans
    (List.perm_insertionSort geCount p2).symm

/-- Witness for C4's amended theorem: the two tied outcomes of the counterexample
tree are permutations of one another. -/
theorem scannerOutcome_perm_deterministic_witness : (["A", "B"] : List String).Perm ["B", "A"] :=
  scannerOutcome_perm_deterministic enryByName ["p"] treeTie ["A", "B"] ["B", "A"]
    ⟨[("A", 1), ("B", 1)], [("A", 1), ("B", 1)], rfl, List.Perm.refl _, rfl⟩
    ⟨[("A", 1), ("B", 1)], [("B", 1), ("A", 1)], rfl,
      List.Perm.swap ("B", 1) ("A", 1) [], rfl⟩

/-!  ## Lemmas for C9: the statistics event queue  -/

theorem countP_set (l : List FusStage) (i : Nat) (a b : FusStage) (p : FusStage → Bool)
    (h : l.get? i = some a) :
    (l.set i b).countP p + (if p a then 1 else 0) = l.countP p + (if p b then 1 else 0) := by
  induction l generalizing i with
  | nil => simp at h
  | cons x xs ih =>
    cases i with
    | zero =>
      have hx : x = a := Option.some.inj h
      subst hx
      simp only [List.set, List.countP_cons]
      omega
    | succ n =>
      simp only [List.get?] at h
      simp only [List.set, List.countP_cons]
      have := ih n h
      omega

theorem get?_set_self (l : List FusStage) (i : Nat) (a b : FusStage)
    (h : l.get? i = some a) : (l.set i b).get? i = some b := by
  induction l generalizing i with
  | nil => simp at h
  | cons x xs ih =>
    cases i with
    | zero => rfl
    | succ n =>
      simp only [List.get?] at h
      simp only [List.set, List.get?]
      exact ih n h

theorem get?_set_other (l : List FusStage) (i j : Nat) (b : FusStage) (h : i ≠ j) :
    (l.set i b).get? j = l.get? j := by
  induction l generalizing i j with
  | nil => simp
  | cons x xs ih =>
    cases i with
    | zero =>
      cases j with
      | zero => exact absurd rfl h
      | succ m => rfl
    | succ n =>
      cases j with
      | zero => rfl
      | succ m =>
        simp only [List.set, List.get?]
        exact ih n m (fun hh => h (by rw [hh]))

theorem fusStep_inv (σ σ' : FusState) (h : FusStep σ σ') (hinv : FusInv σ) : FusInv σ' := by
  obtain ⟨hwg, hbuf⟩ := hinv
  cases h with
  | add i hidle =>
    constructor
    · have hc := countP_set σ.stages i _ FusStage.added inFlight hidle
      have h1 : inFlight FusStage.idle = false := rfl
      have h2 : inFlight FusStage.added = true := rfl
      rw [h1, h2] at hc
      simp at hc
      show σ.wg + 1 = (σ.stages.set i FusStage.added).countP inFlight
      omega
    · intro j
      by_cases hij : i = j
      · subst hij
        have hold := hbuf i
        rw [hidle] at hold
        simp only [reduceCtorEq, Option.some.injEq, or_self, iff_false] at hold
        have hnew := get?_set_self σ.stages i _ FusStage.added hidle
        show i ∈ σ.buffer ↔ _
        rw [hnew]
        constructor
        · intro hcm
          exact absurd hcm hold
        · intro hcm
          rcases hcm with hcm | hcm <;> simp at hcm
      · show j ∈ σ.buffer ↔ _
        rw [get?_set_other _ _ _ _ hij]
        exact hbuf j
  | send i hsent hcons =>
    constructor
    · have hc := countP_set σ.stages i _ FusStage.sent inFlight hsent
      have h1 : inFlight FusStage.added = true := rfl
      have h2 : inFlight FusStage.sent = true := rfl
      rw [h1, h2] at hc
      show σ.wg = (σ.stages.set i FusStage.sent).countP inFlight
      omega
    · intro j
      by_cases hij : i = j
      · subst hij
        have hold := hbuf i
        rw [hsent] at hold
        simp only [reduceCtorEq, Option.some.injEq, or_self, iff_false] at hold
        have hnew := get?_set_self σ.stages i _ FusStage.sent hsent
        show i ∈ σ.buffer ↔ _
        rw [hnew]
        constructor
        · intro hcm
          exact absurd hcm hold
        · intro hcm
          rcases hcm with hcm | hcm <;> simp at hcm
      · show j ∈ σ.buffer ↔ _
        rw [get?_set_other _ _ _ _ hij]
        exact hbuf j
  | append i hs =>
    constructor
    · have hc := countP_set σ.stages i _ FusStage.appended inFlight hs
      have h1 : inFlight FusStage.sent = true := rfl
      have h2 : inFlight FusStage.appended = true := rfl
      rw [h1, h2] at hc
      show σ.wg = (σ.stages.set i FusStage.appended).countP inFlight
      omega
    · intro j
      by_cases hij : i = j
      · subst hij
        have hnew := get?_set_self σ.stages i _ FusStage.appended hs
        show i ∈ σ.buffer ++ [i] ↔ _
        rw [hnew]
        constructor
        · intro _
          exact Or.inl rfl
        · intro _
          exact List.mem_append_right _ (List.mem_singleton.2 rfl)
      · have hne : j ≠ i := fun hh => hij hh.symm
        show j ∈ σ.buffer ++ [i] ↔ _
        rw [get?_set_other _ _ _ _ hij]
        rw [show (j ∈ σ.buffer ++ [i]) ↔ j ∈ σ.buffer by simp [List.mem_append, hne]]
        exact hbuf j
  | done i hs =>
    constructor
    · have hc := countP_set σ.stages i _ FusStage.done inFlight hs
      have h1 : inFlight FusStage.appended = true := rfl
      have h2 : inFlight FusStage.done = false := rfl
      rw [h1, h2] at hc
      simp at hc
      have hpos : 0 < σ.stages.countP inFlight := by
        rw [List.countP_pos]
        exact ⟨FusStage.appended, List.get?_mem hs, rfl⟩
      show σ.wg - 1 = (σ.stages.set i FusStage.done).countP inFlight
      omega
    · intro j
      by_cases hij : i = j
      · subst hij
        have hold := hbuf i
        rw [hs] at hold
        simp only [reduceCtorEq, Option.some.injEq, or_false, iff_true] at hold
        have hnew := get?_set_self σ.stages i _ FusStage.done hs
        show i ∈ σ.buffer ↔ _
        rw [hnew]
        constructor
        · intro _
          exact Or.inr rfl
        · intro _
          exact hold
      · show j ∈ σ.buffer ↔ _
        rw [get?_set_other _ _ _ _ hij]
        exact hbuf j

theorem fusReachable_inv (n : Nat) (σ : FusState) (h : FusReachable n σ) : FusInv σ := by
  induction h with
  | refl =>
    constructor
    · show (0 : Nat) = (List.replicate n FusStage.idle).countP inFlight
      induction n with
      | zero => rfl
      | succ m ihm =>
        rw [List.replicate_succ, List.countP_cons]
        have h0 : inFlight FusStage.idle = false := rfl
        rw [h0]
        simp [← ihm]
    · intro i
      constructor
      · intro hc
        simp [fusInit] at hc
      · intro hc
        exfalso
        rcases hc with hc | hc <;>
          exact absurd (List.eq_of_mem_replicate (List.get?_mem hc)) (by simp)
  | tail _ hstep ih =>
    exact fusStep_inv _ _ hstep ih

/-- C9.  No flush of the event buffer can happen before every enqueued event has been
appended: the flush in `sendFuserEvents` runs only after every producer has returned
(each producer runs `wg.Add(1)` and then completes its channel send, so its stage is
at least `sent`) and after `wg.Wait()` has observed the completion counter at zero
(the counter is incremented once per enqueued event and decremented once per appended
event); in every reachable state satisfying those two wait conditions, every one of
the `n` enqueued events is already in the in-memory buffer. -/
theorem fus_no_flush_before_append (n : Nat) (σ : FusState) (hreach : FusReachable n σ)
    (hsent : ∀ i, i < n → σ.stages.get? i = some FusStage.sent ∨
      σ.stages.get? i = some FusStage.appended ∨ σ.stages.get? i = some FusStage.done)
    (hwg : σ.wg = 0) : ∀ i, i < n → i ∈ σ.buffer := by
  have hinv := fusReachable_inv n σ hreach
  have hcount : σ.stages.countP inFlight = 0 := hinv.1.symm.trans hwg
  intro i hi
  rcases hsent i hi with hs | hs | hs
  · exfalso
    have hpos : 0 < σ.stages.countP inFlight := by
      rw [List.countP_pos]
      exact ⟨FusStage.sent, List.get?_mem hs, rfl⟩
    omega
  · exact (hinv.2 i).2 (Or.inl hs)
  · exact (hinv.2 i).2 (Or.inr hs)

/-- Witness for C9: the full lifecycle of a single event
(`Add`, send, append, `Done`), after which the wait conditions hold and the event is
in the buffer. -/
theorem fus_no_flush_before_append_witness :
    (0 : Nat) ∈ (FusState.mk [FusStage.done] 0 [0]).buffer :=
  fus_no_flush_before_append 1 ⟨[FusStage.done], 0, [0]⟩
    (Relation.ReflTransGen.tail
      (Relation.ReflTransGen.tail
        (Relation.ReflTransGen.tail
          (Relation.ReflTransGen.tail Relation.ReflTransGen.refl
            (FusStep.add ⟨[FusStage.idle], 0, []⟩ 0 rfl))
          (FusStep.send ⟨[FusStage.added], 1, []⟩ 0 rfl rfl))
        (FusStep.append ⟨[FusStage.sent], 1, []⟩ 0 rfl))
      (FusStep.done ⟨[FusStage.appended], 1, [0]⟩ 0 rfl))
    (fun i hi => by
      have hz : i = 0 := Nat.lt_one_iff.1 hi
      subst hz
      exact Or.inr (Or.inr rfl))
    rfl 0 Nat.one_pos

end Qodana
